import Mathlib

/-!
Verification of the microfacet-BSDF renderer (rough dielectric GGX model,
Lambertian diffuse model, and the light-sampling path-tracing integrator).

The definitions below are a shallow embedding of the C++ sources:
`muni/math_helpers.h` (vector frame helpers), `muni/material.h`
(Lambertian and Dielectric BSDFs), and the main shading/rendering file
(`scenes/box.h` plus the driver): float arithmetic is modelled by real
arithmetic, the external collaborators (ray intersection, the
pseudo-random stream, the recursive shading call) are explicit
parameters, and the process-wide random stream is a list of reals
consumed in call order.
-/

noncomputable section

namespace Muni

open Real Classical

/-- 3-component real vector, modelling `Vec3f`. -/
structure Vec3 where
  x : ℝ
  y : ℝ
  z : ℝ

instance : Zero Vec3 := ⟨⟨0, 0, 0⟩⟩
instance : Add Vec3 := ⟨fun a b => ⟨a.x + b.x, a.y + b.y, a.z + b.z⟩⟩
instance : Neg Vec3 := ⟨fun a => ⟨-a.x, -a.y, -a.z⟩⟩
instance : Sub Vec3 := ⟨fun a b => ⟨a.x - b.x, a.y - b.y, a.z - b.z⟩⟩
instance : SMul ℝ Vec3 := ⟨fun c a => ⟨c * a.x, c * a.y, c * a.z⟩⟩
/-- Componentwise product, as used by the vector library for RGB values. -/
instance : Mul Vec3 := ⟨fun a b => ⟨a.x * b.x, a.y * b.y, a.z * b.z⟩⟩

@[simp] theorem Vec3.zero_x : (0 : Vec3).x = 0 := rfl
@[simp] theorem Vec3.zero_y : (0 : Vec3).y = 0 := rfl
@[simp] theorem Vec3.zero_z : (0 : Vec3).z = 0 := rfl
@[simp] theorem Vec3.add_x (a b : Vec3) : (a + b).x = a.x + b.x := rfl
@[simp] theorem Vec3.add_y (a b : Vec3) : (a + b).y = a.y + b.y := rfl
@[simp] theorem Vec3.add_z (a b : Vec3) : (a + b).z = a.z + b.z := rfl
@[simp] theorem Vec3.neg_x (a : Vec3) : (-a).x = -a.x := rfl
@[simp] theorem Vec3.neg_y (a : Vec3) : (-a).y = -a.y := rfl
@[simp] theorem Vec3.neg_z (a : Vec3) : (-a).z = -a.z := rfl
@[simp] theorem Vec3.sub_x (a b : Vec3) : (a - b).x = a.x - b.x := rfl
@[simp] theorem Vec3.sub_y (a b : Vec3) : (a - b).y = a.y - b.y := rfl
@[simp] theorem Vec3.sub_z (a b : Vec3) : (a - b).z = a.z - b.z := rfl
@[simp] theorem Vec3.smul_x (c : ℝ) (a : Vec3) : (c • a).x = c * a.x := rfl
@[simp] theorem Vec3.smul_y (c : ℝ) (a : Vec3) : (c • a).y = c * a.y := rfl
@[simp] theorem Vec3.smul_z (c : ℝ) (a : Vec3) : (c • a).z = c * a.z := rfl
@[simp] theorem Vec3.mul_x (a b : Vec3) : (a * b).x = a.x * b.x := rfl
@[simp] theorem Vec3.mul_y (a b : Vec3) : (a * b).y = a.y * b.y := rfl
@[simp] theorem Vec3.mul_z (a b : Vec3) : (a * b).z = a.z * b.z := rfl
@[simp] theorem Vec3.mk_x (a b c : ℝ) : (Vec3.mk a b c).x = a := rfl
@[simp] theorem Vec3.mk_y (a b c : ℝ) : (Vec3.mk a b c).y = b := rfl
@[simp] theorem Vec3.mk_z (a b c : ℝ) : (Vec3.mk a b c).z = c := rfl

theorem Vec3.ext_iff {a b : Vec3} : a = b ↔ a.x = b.x ∧ a.y = b.y ∧ a.z = b.z := by
  cases a; cases b; simp [Vec3.mk.injEq]

theorem Vec3.add_comm (a b : Vec3) : a + b = b + a := by
  rw [Vec3.ext_iff]; refine ⟨?_, ?_, ?_⟩ <;> simp <;> ring

theorem Vec3.zero_add (a : Vec3) : 0 + a = a := by
  rw [Vec3.ext_iff]; refine ⟨?_, ?_, ?_⟩ <;> simp

/-- `dot(a, b)` of the vector library. -/
def dot (a b : Vec3) : ℝ := a.x * b.x + a.y * b.y + a.z * b.z

/-- `normSquared(a)` macro of the main file (same as `length_squared`). -/
def normSquared (a : Vec3) : ℝ := a.x * a.x + a.y * a.y + a.z * a.z

/-- `length(a) = sqrt(dot(a, a))` of the vector library. -/
def length (a : Vec3) : ℝ := Real.sqrt (dot a a)

/-- `normalize(a) = a / length(a)` of the vector library. -/
def normalize (a : Vec3) : Vec3 := (length a)⁻¹ • a

theorem dot_comm (a b : Vec3) : dot a b = dot b a := by unfold dot; ring

theorem dot_add_right (a b c : Vec3) : dot a (b + c) = dot a b + dot a c := by
  simp only [dot, Vec3.add_x, Vec3.add_y, Vec3.add_z]; ring

theorem dot_smul_right (a : Vec3) (c : ℝ) (b : Vec3) :
    dot a (c • b) = c * dot a b := by
  simp only [dot, Vec3.smul_x, Vec3.smul_y, Vec3.smul_z]; ring

theorem dot_smul_left (c : ℝ) (a b : Vec3) : dot (c • a) b = c * dot a b := by
  simp only [dot, Vec3.smul_x, Vec3.smul_y, Vec3.smul_z]; ring

theorem dot_neg_left (a b : Vec3) : dot (-a) b = -dot a b := by
  simp only [dot, Vec3.neg_x, Vec3.neg_y, Vec3.neg_z]; ring

theorem dot_self_nonneg (a : Vec3) : 0 ≤ dot a a := by
  unfold dot; nlinarith [mul_self_nonneg a.x, mul_self_nonneg a.y, mul_self_nonneg a.z]

theorem dot_self_pos_of_z_ne (a : Vec3) (h : a.z ≠ 0) : 0 < dot a a := by
  unfold dot
  nlinarith [mul_self_nonneg a.x, mul_self_nonneg a.y, mul_self_pos.mpr h]

theorem length_pos_of_z_ne (a : Vec3) (h : a.z ≠ 0) : 0 < length a := by
  unfold length; exact Real.sqrt_pos.mpr (dot_self_pos_of_z_ne a h)

theorem dot_normalize_self (a : Vec3) (h : 0 < dot a a) :
    dot (normalize a) (normalize a) = 1 := by
  unfold normalize
  rw [dot_smul_left, dot_smul_right]
  unfold length
  have hs : Real.sqrt (dot a a) * Real.sqrt (dot a a) = dot a a :=
    Real.mul_self_sqrt (le_of_lt h)
  rw [← mul_assoc, ← mul_inv, hs]
  exact inv_mul_cancel₀ (ne_of_gt h)

theorem normalize_z (a : Vec3) : (normalize a).z = (length a)⁻¹ * a.z := rfl

theorem normalize_of_dot_one (a : Vec3) (h : dot a a = 1) : normalize a = a := by
  unfold normalize length
  rw [h, Real.sqrt_one, inv_one]
  rw [Vec3.ext_iff]; refine ⟨?_, ?_, ?_⟩ <;> simp

/-- `mirror_reflect(incident_dir, normal)` from `math_helpers.h`. -/
def mirror_reflect (incident_dir normal : Vec3) : Vec3 :=
  incident_dir - (2 * dot incident_dir normal) • normal

/-- `coordinate_system(v1)` from `math_helpers.h` (`copysign(1, z)` branchless
frame); the sign of `0.0f` is taken positive, matching the float `+0.0`. -/
def coordinate_system (v1 : Vec3) : Vec3 × Vec3 :=
  (⟨1 + (if v1.z < 0 then (-1 : ℝ) else 1) * v1.x * v1.x * (-1 / ((if v1.z < 0 then (-1 : ℝ) else 1) + v1.z)),
    (if v1.z < 0 then (-1 : ℝ) else 1) * (v1.x * v1.y * (-1 / ((if v1.z < 0 then (-1 : ℝ) else 1) + v1.z))),
    -(if v1.z < 0 then (-1 : ℝ) else 1) * v1.x⟩,
   ⟨v1.x * v1.y * (-1 / ((if v1.z < 0 then (-1 : ℝ) else 1) + v1.z)),
    (if v1.z < 0 then (-1 : ℝ) else 1) + v1.y * v1.y * (-1 / ((if v1.z < 0 then (-1 : ℝ) else 1) + v1.z)),
    -v1.y⟩)

/-- `from_local(v, n)` from `math_helpers.h`. -/
def from_local (v n : Vec3) : Vec3 :=
  v.x • (coordinate_system n).1 + v.y • (coordinate_system n).2 + v.z • n

/-- `to_local(v, n)` from `math_helpers.h`. -/
def to_local (v n : Vec3) : Vec3 :=
  ⟨dot v (coordinate_system n).1, dot v (coordinate_system n).2, dot v n⟩

/-- The `PI` macro of `material.h` (`3.141592653589`). -/
def PIc : ℝ := 3.141592653589

/-- The `INV_PI` macro in effect in `material.h` (`0.31830989`). -/
def INV_PIc : ℝ := 0.31830989

/-- The `EPS` macro of `math_helpers.h`. -/
def EPSc : ℝ := 0.001

/-- `offset_ray_origin(ray_pos, normal)` from the main file. -/
def offset_ray_origin (ray_pos normal : Vec3) : Vec3 := ray_pos + EPSc • normal

theorem INV_PIc_pos : 0 < INV_PIc := by unfold INV_PIc; norm_num

/-- `struct Lambertian` from `material.h`. -/
structure Lambertian where
  albedo : Vec3

/-- `Lambertian::eval`: `albedo * INV_PI`. -/
def Lambertian.eval (l : Lambertian) : Vec3 := INV_PIc • l.albedo

/-- `Lambertian::sample`: cosine-style direction construction, returned with
the constant pdf `1.0/(2.0*PI)`. -/
def Lambertian.sample (l : Lambertian) (normal : Vec3) (u : ℝ × ℝ) : Vec3 × ℝ :=
  (from_local
      (normalize
        ⟨Real.sqrt (max 0 (1 - u.1 * u.1)) * Real.cos (2 * PIc * u.2),
         Real.sqrt (max 0 (1 - u.1 * u.1)) * Real.sin (2 * PIc * u.2),
         u.1⟩)
      normal,
   1 / (2 * PIc))

/-- `Lambertian::pdf`: zero behind the surface, else the constant `INV_PI/4`. -/
def Lambertian.pdf (l : Lambertian) (wo_world wi_world normal : Vec3) : ℝ :=
  if dot wo_world normal < 0 then 0 else INV_PIc / 4

/-- `struct Dielectric` from `material.h`. -/
structure Dielectric where
  eta : ℝ
  roughness : ℝ

/-- `std::clamp(x, lo, hi)`. -/
def clampR (x lo hi : ℝ) : ℝ := min (max x lo) hi

namespace Dielectric

/-- The local `ei` of `Dielectric::Fresnel` after the `entering` swap. -/
def fei (d : Dielectric) (c : ℝ) : ℝ :=
  if 0 < clampR c (-1) 1 then d.eta else 1

/-- The local `et` of `Dielectric::Fresnel` after the `entering` swap. -/
def fet (d : Dielectric) (c : ℝ) : ℝ :=
  if 0 < clampR c (-1) 1 then 1 else d.eta

/-- The local `sin_thetaT` of `Dielectric::Fresnel`:
`ei/et * sqrt(max(0, 1 - cos^2))` on the clamped cosine. -/
def sinThetaT (d : Dielectric) (c : ℝ) : ℝ :=
  d.fei c / d.fet c *
    Real.sqrt (max 0 (1 - clampR c (-1) 1 * clampR c (-1) 1))

/-- The local `cos_thetaT` of `Dielectric::Fresnel`. -/
def cosThetaT (d : Dielectric) (c : ℝ) : ℝ :=
  Real.sqrt (max 0 (1 - d.sinThetaT c * d.sinThetaT c))

/-- The local `Rs` of `Dielectric::Fresnel` (s-polarized amplitude), on the
absolute value of the clamped cosine. -/
def Rs (d : Dielectric) (c : ℝ) : ℝ :=
  (d.fet c * |clampR c (-1) 1| - d.fei c * d.cosThetaT c) /
    (d.fet c * |clampR c (-1) 1| + d.fei c * d.cosThetaT c)

/-- The local `Rp` of `Dielectric::Fresnel` (p-polarized amplitude). -/
def Rp (d : Dielectric) (c : ℝ) : ℝ :=
  (d.fei c * |clampR c (-1) 1| - d.fet c * d.cosThetaT c) /
    (d.fei c * |clampR c (-1) 1| + d.fet c * d.cosThetaT c)

/-- `Dielectric::Fresnel(cos_thetaI)`: total internal reflection returns 1
exactly, otherwise the unpolarized average `0.5*(Rs^2 + Rp^2)`. -/
def Fresnel (d : Dielectric) (c : ℝ) : ℝ :=
  if 1 ≤ d.sinThetaT c then 1 else 0.5 * (d.Rs c * d.Rs c + d.Rp c * d.Rp c)

/-- `Dielectric::D(h)`: GGX normal distribution
`alpha^2 * INV_PI / (cos^4 * (alpha^2 + tan^2)^2)`, zero below the horizon. -/
def D (d : Dielectric) (h : Vec3) : ℝ :=
  if h.z < 0 then 0
  else
    d.roughness * d.roughness * INV_PIc /
      (h.z * h.z * (h.z * h.z) *
        ((d.roughness * d.roughness + (1 - h.z * h.z) / (h.z * h.z)) *
          (d.roughness * d.roughness + (1 - h.z * h.z) / (h.z * h.z))))

/-- `Dielectric::G1(w, h)`: Smith masking for one direction. -/
def G1 (d : Dielectric) (w h : Vec3) : ℝ :=
  if dot w h * w.z ≤ 0 then 0
  else if (1 - w.z * w.z) / (w.z * w.z) ≤ 0 then 1
  else
    2 / (1 +
      Real.sqrt (1 +
        d.roughness * Real.sqrt ((1 - w.z * w.z) / (w.z * w.z)) *
          (d.roughness * Real.sqrt ((1 - w.z * w.z) / (w.z * w.z)))))

/-- `Dielectric::G(wo, wi, h) = G1(wo, h) * G1(wi, h)`. -/
def G (d : Dielectric) (wo wi h : Vec3) : ℝ := d.G1 wo h * d.G1 wi h

/-- `Dielectric::pdf(h) = D(h) * h.z`. -/
def pdf (d : Dielectric) (h : Vec3) : ℝ := d.D h * h.z

/-- The local `thetaM` of `Dielectric::sample_normal`:
`atan(roughness * sqrt(u0) / sqrt(1 - u0))`. -/
def thetaM (d : Dielectric) (u0 : ℝ) : ℝ :=
  Real.arctan (d.roughness * Real.sqrt u0 / Real.sqrt (1 - u0))

/-- The local `phiM` of `Dielectric::sample_normal`: `2*PI*u1`. -/
def phiM (u1 : ℝ) : ℝ := 2 * PIc * u1

/-- The local `m` of `Dielectric::sample_normal`:
`normalize({sin(thetaM)*sin(phiM), sin(thetaM)*cos(phiM), cos(thetaM)})`. -/
def normalM (d : Dielectric) (u : ℝ × ℝ) : Vec3 :=
  normalize
    ⟨Real.sin (d.thetaM u.1) * Real.sin (Dielectric.phiM u.2),
     Real.sin (d.thetaM u.1) * Real.cos (Dielectric.phiM u.2),
     Real.cos (d.thetaM u.1)⟩

/-- `Dielectric::sample_normal(u)`: the GGX-inverted microfacet normal and
`pdf(m)`. -/
def sample_normal (d : Dielectric) (u : ℝ × ℝ) : Vec3 × ℝ :=
  (d.normalM u, d.pdf (d.normalM u))

/-- The hemisphere fold of `Dielectric::eval` (`if (w.z < 0) w *= -1`). -/
def flipNeg (w : Vec3) : Vec3 := if w.z < 0 then -w else w

/-- The reflection half-vector of `Dielectric::eval`:
`normalize(wi + wo) * reflect_coeff` with `reflect_coeff = (wi.z > 0) ? 1 : -1`. -/
def reflHalf (wi wo : Vec3) : Vec3 :=
  (if 0 < wi.z then (1 : ℝ) else -1) • normalize (wi + wo)

/-- The transmission half-vector of `Dielectric::eval`:
`normalize(wi*etaI + wo*etaT)` with `etaT/etaI` chosen by the sign of `wo.z`. -/
def transHalf (d : Dielectric) (wi wo : Vec3) : Vec3 :=
  normalize ((if wo.z < 0 then d.eta else 1) • wi + (if wo.z < 0 then (1 : ℝ) else d.eta) • wo)

/-- The body of `Dielectric::eval` on the already-localized directions
(`wo`/`wi` after `normalize(to_local(.., n))`); the locals `etaT`, `etaI`,
`reflect_coeff`, `h` and the hemisphere folds are hoisted into the named
definitions above. -/
def evalLocal (d : Dielectric) (wo wi : Vec3) : ℝ :=
  if 0 < wi.z * wo.z then
    d.Fresnel (dot (flipNeg wi) (reflHalf wi wo)) * d.D (reflHalf wi wo) *
        d.G (flipNeg wo) (flipNeg wi) (reflHalf wi wo) /
      (4 * (flipNeg wi).z * (flipNeg wo).z)
  else
    |(1 - d.Fresnel (dot (flipNeg wi) (transHalf d wi wo))) * d.D (transHalf d wi wo) *
          d.G (flipNeg wo) (flipNeg wi) (transHalf d wi wo) *
          (if wo.z < 0 then (1 : ℝ) else d.eta) * (if wo.z < 0 then (1 : ℝ) else d.eta) *
          dot (flipNeg wi) (transHalf d wi wo) * dot (flipNeg wo) (transHalf d wi wo) /
        ((flipNeg wi).z * (flipNeg wo).z *
          ((if wo.z < 0 then d.eta else 1) * dot (flipNeg wi) (transHalf d wi wo) +
            (if wo.z < 0 then (1 : ℝ) else d.eta) * dot (flipNeg wo) (transHalf d wi wo)) *
          ((if wo.z < 0 then d.eta else 1) * dot (flipNeg wi) (transHalf d wi wo) +
            (if wo.z < 0 then (1 : ℝ) else d.eta) * dot (flipNeg wo) (transHalf d wi wo)))|

/-- `Dielectric::eval(wo_world, wi_world, n)`. -/
def eval (d : Dielectric) (wo_world wi_world n : Vec3) : ℝ :=
  d.evalLocal (normalize (to_local wo_world n)) (normalize (to_local wi_world n))

/-- The local `wo` of `Dielectric::sample`: `normalize(to_local(wo_world, n))`. -/
def woLocal (wo_world n : Vec3) : Vec3 := normalize (to_local wo_world n)

/-- The local `m` of `Dielectric::sample`: the microfacet normal drawn by
`sample_normal(Vec2f{u.y, u.z})` (the pdf component is discarded). -/
def sampleM (d : Dielectric) (u : Vec3) : Vec3 := (d.sample_normal (u.y, u.z)).1

/-- The local `F` of `Dielectric::sample`: `Fresnel(dot(wo, m))`. -/
def sampleF (d : Dielectric) (wo_world n u : Vec3) : ℝ :=
  d.Fresnel (dot (woLocal wo_world n) (d.sampleM u))

/-- The local `etaEff = ei/et` of `Dielectric::sample`, with `ei`/`et`
swapped when `wo.z <= 0` (not entering). -/
def etaEffOf (d : Dielectric) (woz : ℝ) : ℝ :=
  (if 0 < woz then d.eta else 1) / (if 0 < woz then (1 : ℝ) else d.eta)

/-- The local `sin_thetaT2 = etaEff^2 * (1 - cos_thetaO^2)` of
`Dielectric::sample`. -/
def sampleSinT2 (d : Dielectric) (wo_world n u : Vec3) : ℝ :=
  d.etaEffOf (woLocal wo_world n).z * d.etaEffOf (woLocal wo_world n).z *
    (1 - dot (woLocal wo_world n) (d.sampleM u) * dot (woLocal wo_world n) (d.sampleM u))

/-- `Dielectric::sample(wo_world, n, u)`: microfacet normal from two of the
three randoms, Fresnel branch selection on `u.x`, mirror reflection with
weight `F`, Snell refraction with weight `1 - F`, and the null sample
`(Vec3f{}, 0)` under total internal reflection. -/
def sample (d : Dielectric) (wo_world n u : Vec3) : Vec3 × ℝ :=
  if u.x < d.sampleF wo_world n u then
    (from_local (normalize (mirror_reflect (-(woLocal wo_world n)) (d.sampleM u))) n,
     d.sampleF wo_world n u)
  else if 1 ≤ d.sampleSinT2 wo_world n u then (0, 0)
  else
    (from_local
        (normalize
          ⟨d.etaEffOf (woLocal wo_world n).z * -(woLocal wo_world n).x,
           d.etaEffOf (woLocal wo_world n).z * -(woLocal wo_world n).y,
           if 0 < (woLocal wo_world n).z then
             -Real.sqrt (1 - d.sampleSinT2 wo_world n u)
           else Real.sqrt (1 - d.sampleSinT2 wo_world n u)⟩)
        n,
     1 - d.sampleF wo_world n u)

end Dielectric

/-! ## Scene, light and integrator (`scenes/box.h` and the main file) -/

/-- The closed material variant set of the scene table. -/
inductive Material where
  | lamb (l : Lambertian)
  | diel (d : Dielectric)

/-- The fields of `struct Triangle` the shading step reads. -/
structure Tri where
  face_normal : Vec3
  emission : Vec3
  material_id : ℕ

/-- `is_emitter(tri)`: `tri.emission != Vec3f{0.0f}`. -/
def is_emitter (t : Tri) : Prop := t.emission ≠ 0

/-- `BoxScene` light constants. -/
def light_x : ℝ := 0.195
def light_y : ℝ := -0.355
def light_z : ℝ := 0.545
def light_len_x : ℝ := 0.16
def light_len_y : ℝ := 0.16
def inv_light_area : ℝ := 1 / (light_len_x * light_len_y)
def light_color : Vec3 := ⟨50, 50, 50⟩
def light_normal : Vec3 := ⟨0, 0, -1⟩

/-- `sample_area_light(samples)`: uniform point on the rectangle, constant pdf. -/
def sample_area_light (samples : ℝ × ℝ) : Vec3 × Vec3 × ℝ :=
  (⟨light_x + samples.1 * light_len_x, light_y + samples.2 * light_len_y, light_z⟩,
   light_normal, inv_light_area)

/-- `eval_area_light(light_dir)`: emitted radiance on the emitting side. -/
def eval_area_light (light_dir : Vec3) : Vec3 :=
  if 0 < dot light_dir light_normal then light_color else 0

/-- `p_rr` of `shade_with_light_sampling`. -/
def p_rr : ℝ := 0.8

/-- The direct (next-event) term of `shade_with_light_sampling`: a light
sample from the two randoms `u1, u2`, a shadow query through the
intersection oracle `hitF`, and the Lambertian-only direct estimator
(`L_dir` stays zero on the dielectric branch and when the shadow ray does
not find the emitter). -/
def directTerm (M : ℕ → Material) (hitF : Vec3 → Vec3 → Bool × ℝ × Tri)
    (tri : Tri) (p : Vec3) (u1 u2 : ℝ) : Vec3 :=
  if is_emitter (hitF p (normalize ((sample_area_light (u1, u2)).1 - p))).2.2 then
    match M tri.material_id with
    | Material.lamb l =>
        (max 0 (dot (normalize tri.face_normal) (normalize ((sample_area_light (u1, u2)).1 - p))) /
            ((sample_area_light (u1, u2)).2.2 * normSquared ((sample_area_light (u1, u2)).1 - p) /
              max (dot (-normalize ((sample_area_light (u1, u2)).1 - p))
                    (normalize (sample_area_light (u1, u2)).2.1)) 0)) •
          (eval_area_light (-normalize ((sample_area_light (u1, u2)).1 - p)) * l.eval)
    | Material.diel _ => 0
  else 0

/-- The indirect branch of `shade_with_light_sampling`: consumes the BSDF
sampling randoms from the stream, queries the intersection oracle, and
recurses through the oracle `recv` only under the code's guard
(`hit2 && !is_emitter` for Lambertian, plus `pdf_wi > 0` for Dielectric). -/
def indirectStep (M : ℕ → Material) (hitF : Vec3 → Vec3 → Bool × ℝ × Tri)
    (recv : Tri → Vec3 → Vec3 → List ℝ → Vec3 × List ℝ)
    (tri : Tri) (p wo : Vec3) (rest : List ℝ) : Vec3 × List ℝ :=
  match M tri.material_id with
  | Material.lamb mat =>
    match rest with
    | v1 :: v2 :: rest2 =>
      if (hitF p (mat.sample tri.face_normal (v1, v2)).1).1 = true ∧
          ¬ is_emitter (hitF p (mat.sample tri.face_normal (v1, v2)).1).2.2 then
        ((max (dot (normalize tri.face_normal) (normalize (mat.sample tri.face_normal (v1, v2)).1)) 0 /
              p_rr / (mat.sample tri.face_normal (v1, v2)).2) •
            ((recv (hitF p (mat.sample tri.face_normal (v1, v2)).1).2.2
                (offset_ray_origin
                  (p + (hitF p (mat.sample tri.face_normal (v1, v2)).1).2.1 •
                    normalize (mat.sample tri.face_normal (v1, v2)).1)
                  (hitF p (mat.sample tri.face_normal (v1, v2)).1).2.2.face_normal)
                (-(mat.sample tri.face_normal (v1, v2)).1) rest2).1 * mat.eval),
         (recv (hitF p (mat.sample tri.face_normal (v1, v2)).1).2.2
            (offset_ray_origin
              (p + (hitF p (mat.sample tri.face_normal (v1, v2)).1).2.1 •
                normalize (mat.sample tri.face_normal (v1, v2)).1)
              (hitF p (mat.sample tri.face_normal (v1, v2)).1).2.2.face_normal)
            (-(mat.sample tri.face_normal (v1, v2)).1) rest2).2)
      else (0, rest2)
    | _ => (0, [])
  | Material.diel mat =>
    match rest with
    | v1 :: v2 :: v3 :: rest2 =>
      if (hitF p (mat.sample wo tri.face_normal ⟨v1, v2, v3⟩).1).1 = true ∧
          ¬ is_emitter (hitF p (mat.sample wo tri.face_normal ⟨v1, v2, v3⟩).1).2.2 ∧
          0 < (mat.sample wo tri.face_normal ⟨v1, v2, v3⟩).2 then
        ((mat.eval wo (mat.sample wo tri.face_normal ⟨v1, v2, v3⟩).1 tri.face_normal *
              |dot (normalize tri.face_normal) (normalize (mat.sample wo tri.face_normal ⟨v1, v2, v3⟩).1)| /
              p_rr / (mat.sample wo tri.face_normal ⟨v1, v2, v3⟩).2) •
            (recv (hitF p (mat.sample wo tri.face_normal ⟨v1, v2, v3⟩).1).2.2
              (offset_ray_origin
                (p + (hitF p (mat.sample wo tri.face_normal ⟨v1, v2, v3⟩).1).2.1 •
                  normalize (mat.sample wo tri.face_normal ⟨v1, v2, v3⟩).1)
                (hitF p (mat.sample wo tri.face_normal ⟨v1, v2, v3⟩).1).2.2.face_normal)
              (-(mat.sample wo tri.face_normal ⟨v1, v2, v3⟩).1) rest2).1,
         (recv (hitF p (mat.sample wo tri.face_normal ⟨v1, v2, v3⟩).1).2.2
            (offset_ray_origin
              (p + (hitF p (mat.sample wo tri.face_normal ⟨v1, v2, v3⟩).1).2.1 •
                normalize (mat.sample wo tri.face_normal ⟨v1, v2, v3⟩).1)
              (hitF p (mat.sample wo tri.face_normal ⟨v1, v2, v3⟩).1).2.2.face_normal)
            (-(mat.sample wo tri.face_normal ⟨v1, v2, v3⟩).1) rest2).2)
      else (0, rest2)
    | _ => (0, [])

/-- `shade_with_light_sampling(tri, p, wo)` with the random stream passed
explicitly as a list consumed in program order (two draws for the light
sample, then one draw for Russian roulette, then the BSDF draws inside
`indirectStep`), and the recursive call abstracted as the oracle `recv`.
Returns the radiance together with the unconsumed remainder of the stream. -/
def shade_with_light_sampling (M : ℕ → Material)
    (hitF : Vec3 → Vec3 → Bool × ℝ × Tri)
    (recv : Tri → Vec3 → Vec3 → List ℝ → Vec3 × List ℝ)
    (tri : Tri) (p wo : Vec3) (rs : List ℝ) : Vec3 × List ℝ :=
  match rs with
  | u1 :: u2 :: r :: rest =>
    if p_rr < r then (directTerm M hitF tri p u1 u2, rest)
    else
      (directTerm M hitF tri p u1 u2 + (indirectStep M hitF recv tri p wo rest).1,
       (indirectStep M hitF recv tri p wo rest).2)
  | _ => (0, [])

/-- The per-pixel accumulation of `renderRow`: start from zero, add each
per-sample estimate clamped componentwise to `[0, 50]`, then divide by the
sample count. -/
def clampVec (v lo hi : Vec3) : Vec3 :=
  ⟨clampR v.x lo.x hi.x, clampR v.y lo.y hi.y, clampR v.z lo.z hi.z⟩

/-- The stored pixel value of `renderRow` for a list of per-sample radiance
estimates (the outputs of `path_tracing_with_light_sampling`). -/
def pixelValue (estimates : List Vec3) : Vec3 :=
  ((estimates.length : ℝ))⁻¹ •
    List.foldl (fun acc v => acc + clampVec v 0 ⟨50, 50, 50⟩) 0 estimates

/-! ## Range helpers -/

theorem sq_frac_le_one {A B : ℝ} (hA : 0 ≤ A) (hB : 0 ≤ B) :
    (A - B) / (A + B) * ((A - B) / (A + B)) ≤ 1 := by
  rcases eq_or_lt_of_le (add_nonneg hA hB) with h | h
  · rw [← h, div_zero, zero_mul]; exact zero_le_one
  · have h1 : (A - B) / (A + B) ≤ 1 := by rw [div_le_one h]; linarith
    have h2 : -1 ≤ (A - B) / (A + B) := by
      rw [le_div_iff₀ h]; linarith
    nlinarith

namespace Dielectric

theorem fei_pos (d : Dielectric) (c : ℝ) (he : 0 < d.eta) : 0 < d.fei c := by
  unfold fei; split
  · exact he
  · norm_num

theorem fet_pos (d : Dielectric) (c : ℝ) (he : 0 < d.eta) : 0 < d.fet c := by
  unfold fet; split
  · norm_num
  · exact he

theorem cosThetaT_nonneg (d : Dielectric) (c : ℝ) : 0 ≤ d.cosThetaT c :=
  Real.sqrt_nonneg _

theorem Fresnel_nonneg (d : Dielectric) (c : ℝ) : 0 ≤ d.Fresnel c := by
  unfold Fresnel; split
  · norm_num
  · nlinarith [mul_self_nonneg (d.Rs c), mul_self_nonneg (d.Rp c)]

theorem Fresnel_le_one (d : Dielectric) (c : ℝ) (he : 0 < d.eta) :
    d.Fresnel c ≤ 1 := by
  unfold Fresnel; split
  · exact le_refl 1
  · have hA : 0 ≤ d.fet c * |clampR c (-1) 1| :=
      mul_nonneg (d.fet_pos c he).le (abs_nonneg _)
    have hB : 0 ≤ d.fei c * d.cosThetaT c :=
      mul_nonneg (d.fei_pos c he).le (d.cosThetaT_nonneg c)
    have hA2 : 0 ≤ d.fei c * |clampR c (-1) 1| :=
      mul_nonneg (d.fei_pos c he).le (abs_nonneg _)
    have hB2 : 0 ≤ d.fet c * d.cosThetaT c :=
      mul_nonneg (d.fet_pos c he).le (d.cosThetaT_nonneg c)
    have h1 := sq_frac_le_one hA hB
    have h2 := sq_frac_le_one hA2 hB2
    unfold Rs Rp
    nlinarith

theorem D_nonneg (d : Dielectric) (h : Vec3) : 0 ≤ d.D h := by
  unfold D; split
  · exact le_refl 0
  · apply div_nonneg
    · have := INV_PIc_pos
      nlinarith [mul_self_nonneg d.roughness]
    · nlinarith [mul_self_nonneg
        (h.z * h.z * (d.roughness * d.roughness + (1 - h.z * h.z) / (h.z * h.z)))]

theorem D_zero_of_neg (d : Dielectric) (h : Vec3) (hz : h.z < 0) : d.D h = 0 := by
  unfold D; rw [if_pos hz]

theorem G1_nonneg (d : Dielectric) (w h : Vec3) : 0 ≤ d.G1 w h := by
  unfold G1; split
  · exact le_refl 0
  · split
    · norm_num
    · positivity

theorem G1_le_one (d : Dielectric) (w h : Vec3) : d.G1 w h ≤ 1 := by
  unfold G1; split
  · norm_num
  · split
    · exact le_refl 1
    · set r := d.roughness * Real.sqrt ((1 - w.z * w.z) / (w.z * w.z)) with hr
      have h1 : Real.sqrt 1 ≤ Real.sqrt (1 + r * r) :=
        Real.sqrt_le_sqrt (by nlinarith [mul_self_nonneg r])
      rw [Real.sqrt_one] at h1
      rw [div_le_one (by linarith)]
      linarith

end Dielectric

/-! ## Claims -/

/-- C1: for every cosine, microfacet normal and direction, and every
Dielectric instance with `eta > 0` and `roughness >= 0`, the code's
`Fresnel` lies in `[0,1]`, `D(m)` is nonnegative and equals `0` whenever
`m.z < 0`, and `G1(w,m)` lies in `[0,1]`. -/
theorem claim1_energy_range (d : Dielectric) (c : ℝ) (m w : Vec3)
    (he : 0 < d.eta) (hr : 0 ≤ d.roughness) :
    (0 ≤ d.Fresnel c ∧ d.Fresnel c ≤ 1) ∧
    (0 ≤ d.D m ∧ (m.z < 0 → d.D m = 0)) ∧
    (0 ≤ d.G1 w m ∧ d.G1 w m ≤ 1) :=
  ⟨⟨d.Fresnel_nonneg c, d.Fresnel_le_one c he⟩,
   ⟨d.D_nonneg m, d.D_zero_of_neg m⟩,
   ⟨d.G1_nonneg w m, d.G1_le_one w m⟩⟩

/-- Concrete witness for C1 at `eta = 3/2`, `roughness = 1/4`. -/
theorem claim1_energy_range_witness :
    (0 : ℝ) < 3 / 2 ∧ (0 : ℝ) ≤ 1 / 4 ∧
    (0 ≤ Dielectric.Fresnel ⟨3 / 2, 1 / 4⟩ (1 / 2) ∧
      Dielectric.Fresnel ⟨3 / 2, 1 / 4⟩ (1 / 2) ≤ 1) ∧
    (0 ≤ Dielectric.D ⟨3 / 2, 1 / 4⟩ ⟨0, 0, -1⟩ ∧
      Dielectric.D ⟨3 / 2, 1 / 4⟩ ⟨0, 0, -1⟩ = 0) ∧
    (0 ≤ Dielectric.G1 ⟨3 / 2, 1 / 4⟩ ⟨1, 0, 0⟩ ⟨0, 0, -1⟩ ∧
      Dielectric.G1 ⟨3 / 2, 1 / 4⟩ ⟨1, 0, 0⟩ ⟨0, 0, -1⟩ ≤ 1) := by
  have h := claim1_energy_range ⟨3 / 2, 1 / 4⟩ (1 / 2) ⟨0, 0, -1⟩ ⟨1, 0, 0⟩
    (show (0 : ℝ) < 3 / 2 by norm_num) (show (0 : ℝ) ≤ 1 / 4 by norm_num)
  exact ⟨by norm_num, by norm_num, h.1,
    ⟨h.2.1.1, h.2.1.2 (by norm_num)⟩, h.2.2⟩

/-- C2: whenever the computed sine of the transmitted angle (the code's
`sin_thetaT`, with `ei` and `et` swapped when the clamped cosine is not
positive) reaches or exceeds 1, `Fresnel` returns exactly 1; in particular
for `eta = 3/2` on the entering side with `sin_thetaI > 1/eta = 2/3`. -/
theorem claim2_total_internal_reflection (d : Dielectric) (c ci : ℝ) :
    (1 ≤ d.sinThetaT c → d.Fresnel c = 1) ∧
    (d.eta = 3 / 2 → 0 < ci → ci ≤ 1 → 2 / 3 < Real.sqrt (1 - ci * ci) →
      d.Fresnel ci = 1) := by
  constructor
  · intro h; unfold Dielectric.Fresnel; rw [if_pos h]
  · intro heta hpos hle hs
    have hclamp : clampR ci (-1) 1 = ci := by
      unfold clampR; rw [max_eq_left (by linarith), min_eq_left hle]
    have hmax : max 0 (1 - ci * ci) = 1 - ci * ci :=
      max_eq_right (by nlinarith)
    have hsin : 1 ≤ d.sinThetaT ci := by
      unfold Dielectric.sinThetaT Dielectric.fei Dielectric.fet
      simp only [hclamp, hmax, if_pos hpos]
      rw [heta]
      nlinarith [Real.sqrt_nonneg (1 - ci * ci)]
    unfold Dielectric.Fresnel; rw [if_pos hsin]

/-- Concrete witness for C2 at `eta = 3/2`, incidence cosine `1/2`
(so `sin_thetaI = sqrt(3)/2 > 2/3`, beyond the critical angle). -/
theorem claim2_total_internal_reflection_witness :
    (Dielectric.mk (3 / 2) (1 / 4)).eta = 3 / 2 ∧ (0 : ℝ) < 1 / 2 ∧
    (1 / 2 : ℝ) ≤ 1 ∧ 2 / 3 < Real.sqrt (1 - (1 / 2 : ℝ) * (1 / 2)) ∧
    Dielectric.Fresnel ⟨3 / 2, 1 / 4⟩ (1 / 2) = 1 := by
  have hs : (2 / 3 : ℝ) < Real.sqrt (1 - (1 / 2 : ℝ) * (1 / 2)) := by
    have h34 : (1 - (1 / 2 : ℝ) * (1 / 2)) = 3 / 4 := by norm_num
    rw [h34]
    exact (Real.lt_sqrt (by norm_num)).mpr (by norm_num)
  exact ⟨rfl, by norm_num, by norm_num, hs,
    (claim2_total_internal_reflection ⟨3 / 2, 1 / 4⟩ 0 (1 / 2)).2 rfl
      (by norm_num) (by norm_num) hs⟩

/-- C6: for `u.1` in `[0,1)` and nonnegative roughness, `sample_normal`
returns a unit vector with nonnegative z together with the pdf
`D(m) * m.z` exactly. -/
theorem claim6_sample_normal (d : Dielectric) (u : ℝ × ℝ)
    (hr : 0 ≤ d.roughness) (h0 : 0 ≤ u.1) (h1 : u.1 < 1) :
    length (d.sample_normal u).1 = 1 ∧ 0 ≤ (d.sample_normal u).1.z ∧
    (d.sample_normal u).2 = d.D (d.sample_normal u).1 * (d.sample_normal u).1.z := by
  have hv : dot
      (Vec3.mk (Real.sin (d.thetaM u.1) * Real.sin (Dielectric.phiM u.2))
        (Real.sin (d.thetaM u.1) * Real.cos (Dielectric.phiM u.2))
        (Real.cos (d.thetaM u.1)))
      (Vec3.mk (Real.sin (d.thetaM u.1) * Real.sin (Dielectric.phiM u.2))
        (Real.sin (d.thetaM u.1) * Real.cos (Dielectric.phiM u.2))
        (Real.cos (d.thetaM u.1))) = 1 := by
    unfold dot
    simp only [Vec3.mk_x, Vec3.mk_y, Vec3.mk_z]
    linear_combination (Real.sin (d.thetaM u.1)) ^ 2 * Real.sin_sq_add_cos_sq (Dielectric.phiM u.2) +
      Real.sin_sq_add_cos_sq (d.thetaM u.1)
  have hm : d.normalM u =
      Vec3.mk (Real.sin (d.thetaM u.1) * Real.sin (Dielectric.phiM u.2))
        (Real.sin (d.thetaM u.1) * Real.cos (Dielectric.phiM u.2))
        (Real.cos (d.thetaM u.1)) := by
    unfold Dielectric.normalM
    exact normalize_of_dot_one _ hv
  have hcos : 0 < Real.cos (d.thetaM u.1) := by
    unfold Dielectric.thetaM
    exact Real.cos_arctan _ ▸ by positivity
  refine ⟨?_, ?_, rfl⟩
  · show length (d.normalM u) = 1
    rw [hm]; unfold length; rw [hv, Real.sqrt_one]
  · show 0 ≤ (d.normalM u).z
    rw [hm]; exact hcos.le

/-- Concrete witness for C6 at `u = (0, 0)`. -/
theorem claim6_sample_normal_witness :
    (0 : ℝ) ≤ 1 / 4 ∧ (0 : ℝ) ≤ 0 ∧ (0 : ℝ) < 1 ∧
    length ((Dielectric.mk (3 / 2) (1 / 4)).sample_normal (0, 0)).1 = 1 ∧
    0 ≤ ((Dielectric.mk (3 / 2) (1 / 4)).sample_normal (0, 0)).1.z ∧
    ((Dielectric.mk (3 / 2) (1 / 4)).sample_normal (0, 0)).2 =
      (Dielectric.mk (3 / 2) (1 / 4)).D
          ((Dielectric.mk (3 / 2) (1 / 4)).sample_normal (0, 0)).1 *
        ((Dielectric.mk (3 / 2) (1 / 4)).sample_normal (0, 0)).1.z := by
  have h := claim6_sample_normal ⟨3 / 2, 1 / 4⟩ (0, 0)
    (show (0 : ℝ) ≤ 1 / 4 by norm_num) (by norm_num) (by norm_num)
  exact ⟨by norm_num, by norm_num, by norm_num, h.1, h.2.1, h.2.2⟩

/-- C7: `Lambertian::sample` returns the constant pdf `1/(2*PI)` for every
normal and random pair, while `Lambertian::pdf` returns the distinct
constant `INV_PI/4` whenever `dot(wo, normal) >= 0` and `0` on the back
side; the two constants are genuinely different. -/
theorem claim7_lambertian_constants (l : Lambertian) (normal wo wi : Vec3)
    (u : ℝ × ℝ) :
    (l.sample normal u).2 = 1 / (2 * PIc) ∧
    (0 ≤ dot wo normal → l.pdf wo wi normal = INV_PIc / 4) ∧
    (dot wo normal < 0 → l.pdf wo wi normal = 0) ∧
    1 / (2 * PIc) ≠ INV_PIc / 4 := by
  refine ⟨rfl, ?_, ?_, ?_⟩
  · intro h; unfold Lambertian.pdf; rw [if_neg (not_lt.mpr h)]
  · intro h; unfold Lambertian.pdf; rw [if_pos h]
  · unfold PIc INV_PIc; norm_num

/-! ## Reciprocity of the reflection branch of `Dielectric::eval` (C5) -/

theorem one_smul_vec (v : Vec3) : (1 : ℝ) • v = v := by
  rw [Vec3.ext_iff]; refine ⟨?_, ?_, ?_⟩ <;> simp

theorem neg_one_smul_vec (v : Vec3) : (-1 : ℝ) • v = -v := by
  rw [Vec3.ext_iff]; refine ⟨?_, ?_, ?_⟩ <;> simp

theorem dot_neg_right (a b : Vec3) : dot a (-b) = -dot a b := by
  simp only [dot, Vec3.neg_x, Vec3.neg_y, Vec3.neg_z]; ring

theorem reflHalf_symm (a b : Vec3) (hz : 0 < b.z * a.z) :
    Dielectric.reflHalf b a = Dielectric.reflHalf a b := by
  unfold Dielectric.reflHalf
  rw [Vec3.add_comm b a]
  rcases mul_pos_iff.mp hz with ⟨hbz, haz⟩ | ⟨hbz, haz⟩
  · rw [if_pos hbz, if_pos haz]
  · rw [if_neg (not_lt.mpr hbz.le), if_neg (not_lt.mpr haz.le)]

theorem dot_flipNeg_reflHalf (a b : Vec3) (ha : dot a a = 1) (hb : dot b b = 1)
    (hz : 0 < b.z * a.z) :
    dot (Dielectric.flipNeg b) (Dielectric.reflHalf a b) =
      dot (Dielectric.flipNeg a) (Dielectric.reflHalf a b) := by
  have key : dot b (normalize (a + b)) = dot a (normalize (a + b)) := by
    unfold normalize
    rw [dot_smul_right, dot_smul_right]
    congr 1
    rw [dot_add_right, dot_add_right, ha, hb, dot_comm b a]
    ring
  rcases mul_pos_iff.mp hz with ⟨hbz, haz⟩ | ⟨hbz, haz⟩
  · unfold Dielectric.flipNeg Dielectric.reflHalf
    rw [if_neg (not_lt.mpr hbz.le), if_neg (not_lt.mpr haz.le), if_pos haz,
      one_smul_vec]
    exact key
  · unfold Dielectric.flipNeg Dielectric.reflHalf
    rw [if_pos hbz, if_pos haz, if_neg (not_lt.mpr haz.le), neg_one_smul_vec]
    simp only [dot_neg_left, dot_neg_right, neg_neg]
    exact key

theorem evalLocal_symm (d : Dielectric) (a b : Vec3)
    (ha : dot a a = 1) (hb : dot b b = 1) (hz : 0 < b.z * a.z) :
    d.evalLocal a b = d.evalLocal b a := by
  have hz' : 0 < a.z * b.z := by rwa [mul_comm]
  unfold Dielectric.evalLocal
  rw [if_pos hz, if_pos hz']
  rw [reflHalf_symm a b hz]
  rw [dot_flipNeg_reflHalf a b ha hb hz]
  unfold Dielectric.G
  ring

/-- C5: for every Dielectric instance, shading normal and pair of world
directions whose local z-components have the same sign (the reflection
branch of `eval`), swapping `wo_world` and `wi_world` leaves `eval`
unchanged (Helmholtz reciprocity of the reflection branch). -/
theorem claim5_reciprocity (d : Dielectric) (n wo_world wi_world : Vec3)
    (h : 0 < (to_local wi_world n).z * (to_local wo_world n).z) :
    d.eval wo_world wi_world n = d.eval wi_world wo_world n := by
  have hwoz : (to_local wo_world n).z ≠ 0 := by
    intro h0; rw [h0, mul_zero] at h; exact lt_irrefl 0 h
  have hwiz : (to_local wi_world n).z ≠ 0 := by
    intro h0; rw [h0, zero_mul] at h; exact lt_irrefl 0 h
  have hdoto : 0 < dot (to_local wo_world n) (to_local wo_world n) :=
    dot_self_pos_of_z_ne _ hwoz
  have hdoti : 0 < dot (to_local wi_world n) (to_local wi_world n) :=
    dot_self_pos_of_z_ne _ hwiz
  unfold Dielectric.eval
  apply evalLocal_symm d _ _ (dot_normalize_self _ hdoto) (dot_normalize_self _ hdoti)
  rw [normalize_z, normalize_z]
  have hlo : 0 < length (to_local wo_world n) := length_pos_of_z_ne _ hwoz
  have hli : 0 < length (to_local wi_world n) := length_pos_of_z_ne _ hwiz
  have hre : (length (to_local wi_world n))⁻¹ * (to_local wi_world n).z *
      ((length (to_local wo_world n))⁻¹ * (to_local wo_world n).z) =
      (length (to_local wi_world n))⁻¹ * (length (to_local wo_world n))⁻¹ *
        ((to_local wi_world n).z * (to_local wo_world n).z) := by ring
  rw [hre]
  exact mul_pos (mul_pos (inv_pos.mpr hli) (inv_pos.mpr hlo)) h

/-- Concrete witness for C5: both directions on the upper local hemisphere
of the normal `(0,0,1)`. -/
theorem claim5_reciprocity_witness :
    0 < (to_local ⟨3 / 5, 0, 4 / 5⟩ ⟨0, 0, 1⟩).z * (to_local ⟨0, 0, 1⟩ ⟨0, 0, 1⟩).z ∧
    Dielectric.eval ⟨3 / 2, 1 / 4⟩ ⟨0, 0, 1⟩ ⟨3 / 5, 0, 4 / 5⟩ ⟨0, 0, 1⟩ =
      Dielectric.eval ⟨3 / 2, 1 / 4⟩ ⟨3 / 5, 0, 4 / 5⟩ ⟨0, 0, 1⟩ ⟨0, 0, 1⟩ := by
  have hz : 0 < (to_local ⟨3 / 5, 0, 4 / 5⟩ ⟨0, 0, 1⟩).z *
      (to_local ⟨0, 0, 1⟩ ⟨0, 0, 1⟩).z := by
    norm_num [to_local, dot]
  exact ⟨hz, claim5_reciprocity ⟨3 / 2, 1 / 4⟩ ⟨0, 0, 1⟩ ⟨0, 0, 1⟩ ⟨3 / 5, 0, 4 / 5⟩ hz⟩

/-- Concrete witness for C7: front side at `wo = normal = (0,0,1)` and back
side at `wo = (0,0,-1)`. -/
theorem claim7_lambertian_constants_witness :
    ((Lambertian.mk ⟨1, 0, 0⟩).sample ⟨0, 0, 1⟩ (0, 0)).2 = 1 / (2 * PIc) ∧
    0 ≤ dot ⟨0, 0, 1⟩ ⟨0, 0, 1⟩ ∧
    (Lambertian.mk ⟨1, 0, 0⟩).pdf ⟨0, 0, 1⟩ ⟨0, 0, 1⟩ ⟨0, 0, 1⟩ = INV_PIc / 4 ∧
    dot ⟨0, 0, -1⟩ ⟨0, 0, 1⟩ < 0 ∧
    (Lambertian.mk ⟨1, 0, 0⟩).pdf ⟨0, 0, -1⟩ ⟨0, 0, 1⟩ ⟨0, 0, 1⟩ = 0 ∧
    1 / (2 * PIc) ≠ INV_PIc / 4 := by
  have hfront : (0 : ℝ) ≤ dot ⟨0, 0, 1⟩ ⟨0, 0, 1⟩ := by norm_num [dot]
  have hback : dot (Vec3.mk 0 0 (-1)) ⟨0, 0, 1⟩ < 0 := by norm_num [dot]
  have h1 := claim7_lambertian_constants ⟨⟨1, 0, 0⟩⟩ ⟨0, 0, 1⟩ ⟨0, 0, 1⟩ ⟨0, 0, 1⟩ (0, 0)
  have h2 := claim7_lambertian_constants ⟨⟨1, 0, 0⟩⟩ ⟨0, 0, 1⟩ ⟨0, 0, -1⟩ ⟨0, 0, 1⟩ (0, 0)
  exact ⟨h1.1, hfront, h1.2.1 hfront, hback, h2.2.2.1 hback, h1.2.2.2⟩

/-- C3: `Dielectric::sample` draws its microfacet normal from
`sample_normal` on the randoms `(u.y, u.z)`, computes `F` as the Fresnel
term at `dot(wo, m)`, returns the mirror reflection about `m` paired with
the scalar exactly `F` when `u.x < F`, and otherwise (when refraction is
geometrically possible) the Snell-refracted direction paired with exactly
`1 - F`; the returned scalar is the branch-selection probability alone,
never multiplied or divided by `D(m)` or the normal-space pdf. -/
theorem claim3_sample_structure (d : Dielectric) (wo_world n u : Vec3) :
    d.sampleF wo_world n u =
      d.Fresnel (dot (normalize (to_local wo_world n)) (d.sample_normal (u.y, u.z)).1) ∧
    (u.x < d.sampleF wo_world n u →
      d.sample wo_world n u =
        (from_local (normalize (mirror_reflect (-(normalize (to_local wo_world n)))
            ((d.sample_normal (u.y, u.z)).1))) n,
         d.sampleF wo_world n u)) ∧
    (¬ u.x < d.sampleF wo_world n u → d.sampleSinT2 wo_world n u < 1 →
      d.sample wo_world n u =
        (from_local (normalize
            ⟨d.etaEffOf (normalize (to_local wo_world n)).z *
                -(normalize (to_local wo_world n)).x,
              d.etaEffOf (normalize (to_local wo_world n)).z *
                -(normalize (to_local wo_world n)).y,
              if 0 < (normalize (to_local wo_world n)).z then
                -Real.sqrt (1 - d.sampleSinT2 wo_world n u)
              else Real.sqrt (1 - d.sampleSinT2 wo_world n u)⟩) n,
         1 - d.sampleF wo_world n u)) := by
  refine ⟨rfl, ?_, ?_⟩
  · intro h
    unfold Dielectric.sample
    rw [if_pos h]
    rfl
  · intro h1 h2
    unfold Dielectric.sample
    rw [if_neg h1, if_neg (not_le.mpr h2)]
    rfl

/-- Concrete witness for C3: the reflection branch is taken because the
branch random is below the (nonnegative) Fresnel value. -/
theorem claim3_sample_structure_witness :
    (Vec3.mk (-1) 0 0).x <
      Dielectric.sampleF ⟨3 / 2, 1 / 4⟩ ⟨0, 0, 1⟩ ⟨0, 0, 1⟩ ⟨-1, 0, 0⟩ ∧
    Dielectric.sample ⟨3 / 2, 1 / 4⟩ ⟨0, 0, 1⟩ ⟨0, 0, 1⟩ ⟨-1, 0, 0⟩ =
      (from_local (normalize (mirror_reflect (-(normalize (to_local ⟨0, 0, 1⟩ ⟨0, 0, 1⟩)))
          ((Dielectric.sample_normal ⟨3 / 2, 1 / 4⟩ (0, 0)).1))) ⟨0, 0, 1⟩,
       Dielectric.sampleF ⟨3 / 2, 1 / 4⟩ ⟨0, 0, 1⟩ ⟨0, 0, 1⟩ ⟨-1, 0, 0⟩) := by
  have h0 : (0 : ℝ) ≤
      Dielectric.sampleF ⟨3 / 2, 1 / 4⟩ ⟨0, 0, 1⟩ ⟨0, 0, 1⟩ ⟨-1, 0, 0⟩ :=
    Dielectric.Fresnel_nonneg _ _
  have hlt : (Vec3.mk (-1) 0 0).x <
      Dielectric.sampleF ⟨3 / 2, 1 / 4⟩ ⟨0, 0, 1⟩ ⟨0, 0, 1⟩ ⟨-1, 0, 0⟩ := by
    simp only [Vec3.mk_x]; linarith
  exact ⟨hlt,
    (claim3_sample_structure ⟨3 / 2, 1 / 4⟩ ⟨0, 0, 1⟩ ⟨0, 0, 1⟩ ⟨-1, 0, 0⟩).2.1 hlt⟩

/-- C4: in the transmission branch, when the squared sine of the
transmitted angle reaches or exceeds 1 the sample is the zero direction
paired with probability exactly 0; and the integrator's dielectric branch
contributes exactly zero indirect radiance whenever the returned selection
probability is not strictly positive (it recurses only when it is). -/
theorem claim4_null_sample (d : Dielectric) (wo_world n u : Vec3)
    (hF : ¬ u.x < d.sampleF wo_world n u)
    (hT : 1 ≤ d.sampleSinT2 wo_world n u) :
    d.sample wo_world n u = (0, 0) ∧
    (∀ (M : ℕ → Material) (hitF : Vec3 → Vec3 → Bool × ℝ × Tri)
      (recv : Tri → Vec3 → Vec3 → List ℝ → Vec3 × List ℝ)
      (tri : Tri) (p wo : Vec3) (v1 v2 v3 : ℝ) (rest2 : List ℝ) (dm : Dielectric),
      M tri.material_id = Material.diel dm →
      ¬ 0 < (dm.sample wo tri.face_normal ⟨v1, v2, v3⟩).2 →
      (indirectStep M hitF recv tri p wo (v1 :: v2 :: v3 :: rest2)).1 = 0) := by
  constructor
  · unfold Dielectric.sample
    rw [if_neg hF, if_pos hT]
  · intro M hitF recv tri p wo v1 v2 v3 rest2 dm hM hpdf
    simp only [indirectStep, hM]
    rw [if_neg (fun hcon => hpdf hcon.2.2)]

/-- Concrete witness for C4: `eta = 3/2`, smooth surface, exiting-geometry
cosine `3/5` gives `sin_thetaT2 = 36/25 >= 1`, a null sample, and a zero
indirect contribution in the integrator. -/
theorem claim4_null_sample_witness :
    (¬ (Vec3.mk 1 0 0).x <
        Dielectric.sampleF ⟨3 / 2, 0⟩ ⟨4 / 5, 0, 3 / 5⟩ ⟨0, 0, 1⟩ ⟨1, 0, 0⟩) ∧
    1 ≤ Dielectric.sampleSinT2 ⟨3 / 2, 0⟩ ⟨4 / 5, 0, 3 / 5⟩ ⟨0, 0, 1⟩ ⟨1, 0, 0⟩ ∧
    Dielectric.sample ⟨3 / 2, 0⟩ ⟨4 / 5, 0, 3 / 5⟩ ⟨0, 0, 1⟩ ⟨1, 0, 0⟩ = (0, 0) ∧
    (indirectStep (fun _ => Material.diel ⟨3 / 2, 0⟩)
        (fun _ _ => (false, 0, Tri.mk ⟨0, 0, 1⟩ 0 0))
        (fun _ _ _ _ => (0, []))
        (Tri.mk ⟨0, 0, 1⟩ 0 0) ⟨0, 0, 0⟩ ⟨4 / 5, 0, 3 / 5⟩ [1, 0, 0]).1 = 0 := by
  have hloc : to_local ⟨4 / 5, 0, 3 / 5⟩ ⟨0, 0, 1⟩ = Vec3.mk (4 / 5) 0 (3 / 5) := by
    rw [Vec3.ext_iff]
    norm_num [to_local, coordinate_system, dot]
  have hwo : Dielectric.woLocal ⟨4 / 5, 0, 3 / 5⟩ ⟨0, 0, 1⟩ = Vec3.mk (4 / 5) 0 (3 / 5) := by
    unfold Dielectric.woLocal
    rw [hloc]
    exact normalize_of_dot_one _ (by norm_num [dot])
  have ht : Dielectric.thetaM ⟨3 / 2, 0⟩ 0 = 0 := by
    unfold Dielectric.thetaM
    norm_num [Real.sqrt_zero, Real.sqrt_one, Real.arctan_zero]
  have hm : Dielectric.sampleM ⟨3 / 2, 0⟩ ⟨1, 0, 0⟩ = Vec3.mk 0 0 1 := by
    show Dielectric.normalM ⟨3 / 2, 0⟩ (0, 0) = Vec3.mk 0 0 1
    unfold Dielectric.normalM
    rw [show ((0, 0) : ℝ × ℝ).1 = 0 from rfl, ht, Real.sin_zero, Real.cos_zero]
    rw [show Vec3.mk (0 * Real.sin (Dielectric.phiM ((0, 0) : ℝ × ℝ).2))
        (0 * Real.cos (Dielectric.phiM ((0, 0) : ℝ × ℝ).2)) 1 = Vec3.mk 0 0 1 by
      rw [Vec3.ext_iff]; norm_num]
    exact normalize_of_dot_one _ (by norm_num [dot])
  have hcos : dot (Vec3.mk (4 / 5) 0 (3 / 5)) (Vec3.mk 0 0 1) = 3 / 5 := by
    norm_num [dot]
  have hT : 1 ≤ Dielectric.sampleSinT2 ⟨3 / 2, 0⟩ ⟨4 / 5, 0, 3 / 5⟩ ⟨0, 0, 1⟩ ⟨1, 0, 0⟩ := by
    unfold Dielectric.sampleSinT2 Dielectric.etaEffOf
    rw [hwo, hm, hcos]
    norm_num
  have hF : ¬ (Vec3.mk 1 0 0).x <
      Dielectric.sampleF ⟨3 / 2, 0⟩ ⟨4 / 5, 0, 3 / 5⟩ ⟨0, 0, 1⟩ ⟨1, 0, 0⟩ := by
    have hle : Dielectric.sampleF ⟨3 / 2, 0⟩ ⟨4 / 5, 0, 3 / 5⟩ ⟨0, 0, 1⟩ ⟨1, 0, 0⟩ ≤ 1 :=
      Dielectric.Fresnel_le_one _ _ (by norm_num)
    simp only [Vec3.mk_x]
    exact not_lt.mpr hle
  have h := claim4_null_sample ⟨3 / 2, 0⟩ ⟨4 / 5, 0, 3 / 5⟩ ⟨0, 0, 1⟩ ⟨1, 0, 0⟩ hF hT
  have hpair : Dielectric.sample ⟨3 / 2, 0⟩ ⟨4 / 5, 0, 3 / 5⟩
      (Tri.mk ⟨0, 0, 1⟩ 0 0).face_normal ⟨1, 0, 0⟩ = (0, 0) := h.1
  have hnot : ¬ (0 : ℝ) < (Dielectric.sample ⟨3 / 2, 0⟩ ⟨4 / 5, 0, 3 / 5⟩
      (Tri.mk ⟨0, 0, 1⟩ 0 0).face_normal ⟨1, 0, 0⟩).2 := by
    rw [hpair]
    norm_num
  refine ⟨hF, hT, h.1, ?_⟩
  exact h.2 (fun _ => Material.diel ⟨3 / 2, 0⟩)
    (fun _ _ => (false, 0, Tri.mk ⟨0, 0, 1⟩ 0 0)) (fun _ _ _ _ => (0, []))
    (Tri.mk ⟨0, 0, 1⟩ 0 0) ⟨0, 0, 0⟩ ⟨4 / 5, 0, 3 / 5⟩ 1 0 0 [] ⟨3 / 2, 0⟩ rfl hnot

/-- C8: the direct (next-event) term of `shade_with_light_sampling` is
exactly zero at every dielectric hit, regardless of the light-sample
visibility outcome, so the radiance returned there is the indirect term
alone. -/
theorem claim8_no_direct_for_dielectric (M : ℕ → Material)
    (hitF : Vec3 → Vec3 → Bool × ℝ × Tri)
    (recv : Tri → Vec3 → Vec3 → List ℝ → Vec3 × List ℝ)
    (tri : Tri) (p wo : Vec3) (u1 u2 r : ℝ) (rest : List ℝ) (dm : Dielectric)
    (hM : M tri.material_id = Material.diel dm) :
    directTerm M hitF tri p u1 u2 = 0 ∧
    (shade_with_light_sampling M hitF recv tri p wo (u1 :: u2 :: r :: rest)).1 =
      if p_rr < r then 0 else (indirectStep M hitF recv tri p wo rest).1 := by
  have hdir : directTerm M hitF tri p u1 u2 = 0 := by
    unfold directTerm
    split
    · simp only [hM]
    · rfl
  refine ⟨hdir, ?_⟩
  show (if p_rr < r then (directTerm M hitF tri p u1 u2, rest)
      else (directTerm M hitF tri p u1 u2 + (indirectStep M hitF recv tri p wo rest).1,
        (indirectStep M hitF recv tri p wo rest).2)).1 =
    if p_rr < r then 0 else (indirectStep M hitF recv tri p wo rest).1
  split_ifs with hrr
  · exact hdir
  · show directTerm M hitF tri p u1 u2 + (indirectStep M hitF recv tri p wo rest).1 = _
    rw [hdir, Vec3.zero_add]

/-- Concrete witness for C8: a dielectric hit whose shadow ray does reach
the emitter, yet the direct term is zero. -/
theorem claim8_no_direct_for_dielectric_witness :
    directTerm (fun _ => Material.diel ⟨3 / 2, 1 / 4⟩)
        (fun _ _ => (true, 1, Tri.mk ⟨0, 0, -1⟩ ⟨50, 50, 50⟩ 1))
        (Tri.mk ⟨0, 0, 1⟩ 0 0) ⟨0, 0, 0⟩ 0 0 = 0 ∧
    (shade_with_light_sampling (fun _ => Material.diel ⟨3 / 2, 1 / 4⟩)
        (fun _ _ => (true, 1, Tri.mk ⟨0, 0, -1⟩ ⟨50, 50, 50⟩ 1))
        (fun _ _ _ _ => (0, []))
        (Tri.mk ⟨0, 0, 1⟩ 0 0) ⟨0, 0, 0⟩ ⟨0, 0, 1⟩ [0, 0, 9 / 10]).1 =
      if p_rr < 9 / 10 then 0
      else (indirectStep (fun _ => Material.diel ⟨3 / 2, 1 / 4⟩)
          (fun _ _ => (true, 1, Tri.mk ⟨0, 0, -1⟩ ⟨50, 50, 50⟩ 1))
          (fun _ _ _ _ => (0, []))
          (Tri.mk ⟨0, 0, 1⟩ 0 0) ⟨0, 0, 0⟩ ⟨0, 0, 1⟩ []).1 :=
  claim8_no_direct_for_dielectric (fun _ => Material.diel ⟨3 / 2, 1 / 4⟩)
    (fun _ _ => (true, 1, Tri.mk ⟨0, 0, -1⟩ ⟨50, 50, 50⟩ 1))
    (fun _ _ _ _ => (0, [])) (Tri.mk ⟨0, 0, 1⟩ 0 0) ⟨0, 0, 0⟩ ⟨0, 0, 1⟩ 0 0
    (9 / 10) [] ⟨3 / 2, 1 / 4⟩ rfl

/-- C9: each invocation consumes the two light-sample randoms and then
exactly one Russian-roulette random; when that draw exceeds the fixed
continuation probability `p_rr = 0.8` the function returns only the direct
term, touches no further random and performs no recursive call (the result
does not depend on the recursion oracle); otherwise the indirect
continuation always happens — the gate depends only on the draw, with no
depth parameter anywhere in the signature. -/
theorem claim9_russian_roulette (M : ℕ → Material)
    (hitF : Vec3 → Vec3 → Bool × ℝ × Tri)
    (recv : Tri → Vec3 → Vec3 → List ℝ → Vec3 × List ℝ)
    (tri : Tri) (p wo : Vec3) (u1 u2 r : ℝ) (rest : List ℝ) :
    (p_rr < r →
      shade_with_light_sampling M hitF recv tri p wo (u1 :: u2 :: r :: rest) =
        (directTerm M hitF tri p u1 u2, rest)) ∧
    (¬ p_rr < r →
      shade_with_light_sampling M hitF recv tri p wo (u1 :: u2 :: r :: rest) =
        (directTerm M hitF tri p u1 u2 + (indirectStep M hitF recv tri p wo rest).1,
         (indirectStep M hitF recv tri p wo rest).2)) := by
  constructor
  · intro h
    show (if p_rr < r then (directTerm M hitF tri p u1 u2, rest)
        else (directTerm M hitF tri p u1 u2 + (indirectStep M hitF recv tri p wo rest).1,
          (indirectStep M hitF recv tri p wo rest).2)) = _
    rw [if_pos h]
  · intro h
    show (if p_rr < r then (directTerm M hitF tri p u1 u2, rest)
        else (directTerm M hitF tri p u1 u2 + (indirectStep M hitF recv tri p wo rest).1,
          (indirectStep M hitF recv tri p wo rest).2)) = _
    rw [if_neg h]

/-- Concrete witness for C9: the third draw `9/10` exceeds `p_rr = 0.8`, so
the result is the direct term and the rest of the stream `[7]` is
untouched. -/
theorem claim9_russian_roulette_witness :
    p_rr < 9 / 10 ∧
    shade_with_light_sampling (fun _ => Material.lamb ⟨⟨1, 1, 1⟩⟩)
        (fun _ _ => (false, 0, Tri.mk ⟨0, 0, 1⟩ 0 0))
        (fun _ _ _ _ => (0, []))
        (Tri.mk ⟨0, 0, 1⟩ 0 0) ⟨0, 0, 0⟩ ⟨0, 0, 1⟩ [0, 0, 9 / 10, 7] =
      (directTerm (fun _ => Material.lamb ⟨⟨1, 1, 1⟩⟩)
          (fun _ _ => (false, 0, Tri.mk ⟨0, 0, 1⟩ 0 0))
          (Tri.mk ⟨0, 0, 1⟩ 0 0) ⟨0, 0, 0⟩ 0 0, [7]) := by
  have hrr : p_rr < 9 / 10 := by unfold p_rr; norm_num
  exact ⟨hrr,
    (claim9_russian_roulette (fun _ => Material.lamb ⟨⟨1, 1, 1⟩⟩)
      (fun _ _ => (false, 0, Tri.mk ⟨0, 0, 1⟩ 0 0)) (fun _ _ _ _ => (0, []))
      (Tri.mk ⟨0, 0, 1⟩ 0 0) ⟨0, 0, 0⟩ ⟨0, 0, 1⟩ 0 0 (9 / 10) [7]).1 hrr⟩

theorem clampR_bounds_fifty (x : ℝ) : 0 ≤ clampR x 0 50 ∧ clampR x 0 50 ≤ 50 := by
  unfold clampR
  exact ⟨le_min (le_max_right x 0) (by norm_num), min_le_right _ _⟩

theorem foldl_clamp_bounds (l : List Vec3) (acc : Vec3) :
    (acc.x ≤ (List.foldl (fun a v => a + clampVec v 0 ⟨50, 50, 50⟩) acc l).x ∧
      (List.foldl (fun a v => a + clampVec v 0 ⟨50, 50, 50⟩) acc l).x ≤
        acc.x + 50 * l.length) ∧
    (acc.y ≤ (List.foldl (fun a v => a + clampVec v 0 ⟨50, 50, 50⟩) acc l).y ∧
      (List.foldl (fun a v => a + clampVec v 0 ⟨50, 50, 50⟩) acc l).y ≤
        acc.y + 50 * l.length) ∧
    (acc.z ≤ (List.foldl (fun a v => a + clampVec v 0 ⟨50, 50, 50⟩) acc l).z ∧
      (List.foldl (fun a v => a + clampVec v 0 ⟨50, 50, 50⟩) acc l).z ≤
        acc.z + 50 * l.length) := by
  induction l generalizing acc with
  | nil => simp
  | cons v t ih =>
    simp only [List.foldl_cons, List.length_cons]
    have h := ih (acc + clampVec v 0 ⟨50, 50, 50⟩)
    have hx := clampR_bounds_fifty v.x
    have hy := clampR_bounds_fifty v.y
    have hz := clampR_bounds_fifty v.z
    have hax : (acc + clampVec v 0 ⟨50, 50, 50⟩).x = acc.x + clampR v.x 0 50 := by
      simp [clampVec]
    have hay : (acc + clampVec v 0 ⟨50, 50, 50⟩).y = acc.y + clampR v.y 0 50 := by
      simp [clampVec]
    have haz : (acc + clampVec v 0 ⟨50, 50, 50⟩).z = acc.z + clampR v.z 0 50 := by
      simp [clampVec]
    rw [hax, hay, haz] at h
    push_cast
    refine ⟨⟨?_, ?_⟩, ⟨?_, ?_⟩, ⟨?_, ?_⟩⟩
    · have := h.1.1; linarith
    · have := h.1.2; linarith
    · have := h.2.1.1; linarith
    · have := h.2.1.2; linarith
    · have := h.2.2.1; linarith
    · have := h.2.2.2; linarith

/-- C10: every per-sample estimate is clamped componentwise to `[0, 50]`
before accumulation, and the stored pixel value — the average of the
clamped samples — always lies in `[0, 50]^3`. -/
theorem claim10_pixel_clamp (estimates : List Vec3) (v : Vec3)
    (hne : estimates ≠ []) :
    (0 ≤ (clampVec v 0 ⟨50, 50, 50⟩).x ∧ (clampVec v 0 ⟨50, 50, 50⟩).x ≤ 50 ∧
      0 ≤ (clampVec v 0 ⟨50, 50, 50⟩).y ∧ (clampVec v 0 ⟨50, 50, 50⟩).y ≤ 50 ∧
      0 ≤ (clampVec v 0 ⟨50, 50, 50⟩).z ∧ (clampVec v 0 ⟨50, 50, 50⟩).z ≤ 50) ∧
    (0 ≤ (pixelValue estimates).x ∧ (pixelValue estimates).x ≤ 50 ∧
      0 ≤ (pixelValue estimates).y ∧ (pixelValue estimates).y ≤ 50 ∧
      0 ≤ (pixelValue estimates).z ∧ (pixelValue estimates).z ≤ 50) := by
  constructor
  · have hx := clampR_bounds_fifty v.x
    have hy := clampR_bounds_fifty v.y
    have hz := clampR_bounds_fifty v.z
    simp only [clampVec, Vec3.mk_x, Vec3.mk_y, Vec3.mk_z, Vec3.zero_x, Vec3.zero_y,
      Vec3.zero_z]
    exact ⟨hx.1, hx.2, hy.1, hy.2, hz.1, hz.2⟩
  · have hn : 0 < (estimates.length : ℝ) := by
      have := List.length_pos.mpr hne
      exact_mod_cast this
    have hb := foldl_clamp_bounds estimates 0
    simp only [Vec3.zero_x, Vec3.zero_y, Vec3.zero_z, zero_add] at hb
    have hinv : 0 ≤ ((estimates.length : ℝ))⁻¹ := (inv_pos.mpr hn).le
    have hdiv : ∀ s : ℝ, 0 ≤ s → s ≤ 50 * (estimates.length : ℝ) →
        0 ≤ ((estimates.length : ℝ))⁻¹ * s ∧
          ((estimates.length : ℝ))⁻¹ * s ≤ 50 := by
      intro s hs hs50
      refine ⟨mul_nonneg hinv hs, ?_⟩
      have h1 : ((estimates.length : ℝ))⁻¹ * s ≤
          ((estimates.length : ℝ))⁻¹ * (50 * (estimates.length : ℝ)) :=
        mul_le_mul_of_nonneg_left hs50 hinv
      have h2 : ((estimates.length : ℝ))⁻¹ * (50 * (estimates.length : ℝ)) = 50 := by
        field_simp
      linarith
    have hxb := hdiv _ hb.1.1 hb.1.2
    have hyb := hdiv _ hb.2.1.1 hb.2.1.2
    have hzb := hdiv _ hb.2.2.1 hb.2.2.2
    exact ⟨hxb.1, hxb.2, hyb.1, hyb.2, hzb.1, hzb.2⟩

/-- Concrete witness for C10 on the single out-of-range estimate
`(60, -1, 3)`. -/
theorem claim10_pixel_clamp_witness :
    ([(⟨60, -1, 3⟩ : Vec3)] ≠ ([] : List Vec3)) ∧
    (0 ≤ (clampVec ⟨60, -1, 3⟩ 0 ⟨50, 50, 50⟩).x ∧
      (clampVec ⟨60, -1, 3⟩ 0 ⟨50, 50, 50⟩).x ≤ 50 ∧
      0 ≤ (clampVec ⟨60, -1, 3⟩ 0 ⟨50, 50, 50⟩).y ∧
      (clampVec ⟨60, -1, 3⟩ 0 ⟨50, 50, 50⟩).y ≤ 50 ∧
      0 ≤ (clampVec ⟨60, -1, 3⟩ 0 ⟨50, 50, 50⟩).z ∧
      (clampVec ⟨60, -1, 3⟩ 0 ⟨50, 50, 50⟩).z ≤ 50) ∧
    (0 ≤ (pixelValue [⟨60, -1, 3⟩]).x ∧ (pixelValue [⟨60, -1, 3⟩]).x ≤ 50 ∧
      0 ≤ (pixelValue [⟨60, -1, 3⟩]).y ∧ (pixelValue [⟨60, -1, 3⟩]).y ≤ 50 ∧
      0 ≤ (pixelValue [⟨60, -1, 3⟩]).z ∧ (pixelValue [⟨60, -1, 3⟩]).z ≤ 50) := by
  have hne : ([(⟨60, -1, 3⟩ : Vec3)] ≠ ([] : List Vec3)) := by simp
  have h := claim10_pixel_clamp [⟨60, -1, 3⟩] ⟨60, -1, 3⟩ hne
  exact ⟨hne, h.1, h.2⟩

end Muni
